import Mathlib

/-! Verification of the coroutine-based thread pool of
src/examples/coroutine_based_thread_pool.cpp.

The scheduler's shared state (ready deque `q_`, counter `pending_`, flag
`stop_`, and the coroutine frames the pool owns) is modelled as an explicit
record `PoolState`.  All of that state is protected by the single mutex `m_`,
so every critical section of the C++ code becomes one atomic transition on
`PoolState` in this sequential embedding.  A coroutine frame is modelled by
the list of operations its body still has to execute: plain computation
steps, `co_await pool.yield_once()` suspension points, and a step that lets
an exception escape the body.  `pending_` is a `std::atomic<std::size_t>`,
so its arithmetic is taken modulo 2^64. -/

namespace CoroutinePool

/-- A coroutine handle (`std::coroutine_handle<Task::promise_type>`),
identified by an abstract address.  Handles stored in the pool's queue are
never null: `spawn` refuses to enqueue a null handle and `enqueue_` is only
reached from `await_suspend` on a live coroutine. -/
abbrev Handle := Nat

/-- One step of a coroutine body, as seen by the scheduler. -/
inductive CoroOp where
  /-- ordinary computation between suspension points -/
  | compute
  /-- a `co_await pool.yield_once()` suspension point -/
  | yieldOnce
  /-- a step that lets an exception escape the coroutine body, reaching
  `promise_type::unhandled_exception` (line 24) -/
  | raiseErr
deriving DecidableEq, Repr

/-- A live coroutine frame: the operations still to execute, and whether the
coroutine is suspended at its final suspend point (`h.done()`). -/
structure Frame where
  ops : List CoroOp
  done : Bool
deriving DecidableEq, Repr

/-- The heap of coroutine frames: `none` means no live frame at that
address (the frame was destroyed or never existed). -/
abbrev Heap := Handle → Option Frame

/-- Point update of the frame heap. -/
def heapSet (hp : Heap) (h : Handle) (f : Option Frame) : Heap :=
  fun h2 => if h2 = h then f else hp h2

/-- The `Task` wrapper (lines 17-50): it owns at most one coroutine handle,
`h_`, which is null for a default-constructed or moved-from `Task`. -/
structure Task where
  h : Option Handle
deriving DecidableEq, Repr

/-- Move assignment `Task::operator=(Task&&)` (lines 33-39), for two
distinct `Task` objects (the `this != &other` guard makes self-assignment a
no-op).  The target takes the source's handle, the source is nulled, and —
because line 35 `if (h_) h_.destroy();` is commented out — the handle the
target previously held is NOT destroyed: the heap is untouched. -/
def moveAssign (target source : Task) (hp : Heap) : Task × Task × Heap :=
  ({ h := source.h }, { h := none }, hp)

/-- The `Task` destructor (line 44): `if (h_) h_.destroy();`. -/
def taskDtor (t : Task) (hp : Heap) : Heap :=
  match t.h with
  | none => hp
  | some h => heapSet hp h none

/-- Modulus of `std::size_t` arithmetic. -/
def sizeTMod : Nat := 2 ^ 64

/-- The scheduler state of `ThreadPool` (lines 181-190): the ready deque
`q_`, the counter `pending_`, the flag `stop_`, the frames the pool owns,
and an instrumentation counter of how many frames have been destroyed
(each call to `h.destroy()` increments it). -/
structure PoolState where
  q : List Handle
  pending : Nat
  stop : Bool
  frames : Heap
  destroyed : Nat

/-- The state of a freshly constructed pool (lines 62-63):
`stop_(false), drained_(false), pending_(0)`, empty queue, no frames
owned. -/
def initPool : PoolState :=
  { q := [], pending := 0, stop := false, frames := fun _ => none,
    destroyed := 0 }

/-- What one `h.resume()` call reports back to the scheduler. -/
inductive ResumeOutcome where
  /-- the body hit a suspension point; `h.done()` is false afterwards -/
  | suspended
  /-- the body ran `return_void` and is parked at `final_suspend`;
  `h.done()` is true afterwards -/
  | completed
  /-- an exception escaped the body; `unhandled_exception` called
  `std::terminate()` (line 24) and the process died -/
  | terminated
deriving DecidableEq, Repr

/-- Run the body's pending operations until the next suspension point, the
end of the body, or an escaping exception.  Returns the continuation (the
operations after the suspension point) and the outcome. -/
def runOps : List CoroOp → List CoroOp × ResumeOutcome
  | [] => ([], ResumeOutcome.completed)
  | CoroOp.compute :: rest => runOps rest
  | CoroOp.yieldOnce :: rest => (rest, ResumeOutcome.suspended)
  | CoroOp.raiseErr :: _ => ([], ResumeOutcome.terminated)

/-- ThreadPool::enqueue_ (lines 144-149): under the mutex, push the handle
at the BACK of the ready deque (`q_.push_back(h)`), then `cv_.notify_one()`.
This is what `YieldOnce::await_suspend` (lines 124-127) calls before the
suspension of the awaiting coroutine takes effect. -/
def enqueue (s : PoolState) (h : Handle) : PoolState :=
  { s with q := s.q ++ [h] }

/-- One `h.resume()` call (used at line 162 and line 93).  If the body
suspends at `co_await pool.yield_once()`, `await_suspend` has already
pushed the handle back on the pool's queue by the time `resume` returns.
If the body finishes, the frame parks at `final_suspend` with `done()`
true.  If an exception escapes, the process terminates.  Resuming a handle
with no live frame is undefined behaviour in C++ and unreachable under the
ownership protocol; it is totalised here as a no-op suspension. -/
def resume (s : PoolState) (h : Handle) : PoolState × ResumeOutcome :=
  match s.frames h with
  | none => (s, ResumeOutcome.suspended)
  | some f =>
    match runOps f.ops with
    | (rest, ResumeOutcome.suspended) =>
        (enqueue { s with frames := heapSet s.frames h (some ⟨rest, false⟩) } h,
         ResumeOutcome.suspended)
    | (_, ResumeOutcome.completed) =>
        ({ s with frames := heapSet s.frames h (some ⟨[], true⟩) },
         ResumeOutcome.completed)
    | (_, ResumeOutcome.terminated) => (s, ResumeOutcome.terminated)

/-- One `h.destroy()` call: frees the frame and bumps the instrumentation
counter.  Destroying an already-freed handle is undefined behaviour in C++,
unreachable under the protocol; totalised as a no-op. -/
def destroyFrame (s : PoolState) (h : Handle) : PoolState :=
  match s.frames h with
  | none => s
  | some _ =>
      { s with frames := heapSet s.frames h none,
               destroyed := s.destroyed + 1 }

/-- ThreadPool::spawn (lines 101-117).  `auto h = t.handle(); t = Task{};`
releases the caller's ownership (the move assignment nulls `t` without
destroying `h`).  A null handle is dropped.  Otherwise, under the mutex,
`++pending_` and `q_.push_back(h)`; then `cv_.notify_one()` wakes one idle
worker.  The returned triple is the caller's `Task` after the call, the new
pool state, and whether `notify_one` was called.  Note that `stop_` is not
consulted. -/
def spawn (t : Task) (s : PoolState) : Task × PoolState × Bool :=
  match t.h with
  | none => ({ h := none }, s, false)
  | some h =>
      ({ h := none },
       { s with pending := (s.pending + 1) % sizeTMod, q := s.q ++ [h] },
       true)

/-- The predicate `wait_idle` (lines 134-139) blocks on: the call returns
exactly when `pending_ == 0 && q_.empty()` holds. -/
def waitIdleReturns (s : PoolState) : Bool :=
  s.pending == 0 && s.q.isEmpty

/-- Decrement of the `std::atomic<std::size_t>` counter `pending_`
(`--pending_`, line 172), with size_t wrap-around. -/
def pendingDec (p : Nat) : Nat :=
  (p + (sizeTMod - 1)) % sizeTMod

/-- What one iteration of `worker_loop` (lines 151-179) does to the
scheduler state. -/
inductive StepResult where
  /-- `cv_.wait` keeps blocking: no stop request and the queue is empty -/
  | blocked (s : PoolState)
  /-- `if (stop_ && q_.empty()) break;` fired: the worker thread exits -/
  | exited (s : PoolState)
  /-- the worker dequeued handle `h` from the front, resumed it, and the
  iteration finished; `notifiedIdle` records whether
  `cv_idle_.notify_all()` was called -/
  | ran (h : Handle) (s : PoolState) (notifiedIdle : Bool)
  /-- the resumed body let an exception escape: `std::terminate()` ended
  the process; no failure value is carried anywhere -/
  | terminated

/-- One iteration of `ThreadPool::worker_loop` (lines 151-179): wait until
`stop_ || !q_.empty()`; exit if stopped with an empty queue; otherwise pop
the FRONT handle (`q_.front(); q_.pop_front()`) and resume it outside the
lock.  If the handle is then done, destroy it, decrement `pending_`, and
call `cv_idle_.notify_all()` exactly when the decremented count is zero
with an empty queue (lines 164-175).  If it merely suspended, the worker
takes no further action on it (line 176). -/
def workerStep (s : PoolState) : StepResult :=
  match s.q with
  | [] => if s.stop then StepResult.exited s else StepResult.blocked s
  | h :: rest =>
    let s1 : PoolState := { s with q := rest }
    match resume s1 h with
    | (s2, ResumeOutcome.suspended) => StepResult.ran h s2 false
    | (s2, ResumeOutcome.completed) =>
        let s3 := destroyFrame s2 h
        let s4 : PoolState := { s3 with pending := pendingDec s3.pending }
        StepResult.ran h s4 (s4.pending == 0 && s4.q.isEmpty)
    | (_, ResumeOutcome.terminated) => StepResult.terminated

/-- Cost of one queue slot, used to bound the number of iterations of the
destructor's drain loop. -/
def frameCost : Option Frame → Nat
  | none => 1
  | some f => f.ops.length + 2

/-- Total drain-loop bound for a pool state. -/
def queueMeasure (s : PoolState) : Nat :=
  (s.q.map (fun h => frameCost (s.frames h))).sum

/-- The drain loop of the destructor (lines 84-96), with an explicit
iteration bound (the C++ loop is unbounded; `queueMeasure` iterations
always suffice, see `drainFuel_spec`).  Each pass pops the front handle;
`if (!h.done()) h.resume();` then `if (h && h.done()) h.destroy();`.  A
body that yields during the drain has already re-enqueued itself and is
handled by a later pass.  Returns `none` if the bound is exhausted or the
process terminated through an escaping exception. -/
def drainFuel : Nat → PoolState → Option PoolState
  | 0, _ => none
  | fuel + 1, s =>
    match s.q with
    | [] => some s
    | h :: rest =>
      let s1 : PoolState := { s with q := rest }
      match s1.frames h with
      | none => drainFuel fuel s1
      | some f =>
        if f.done then
          drainFuel fuel (destroyFrame s1 h)
        else
          match resume s1 h with
          | (_, ResumeOutcome.terminated) => none
          | (s2, _) =>
            match s2.frames h with
            | some f2 =>
                if f2.done then drainFuel fuel (destroyFrame s2 h)
                else drainFuel fuel s2
            | none => drainFuel fuel s2

/-- The destructor `ThreadPool::~ThreadPool` (lines 74-97) as seen from the
scheduler state: first, under the mutex, `stop_ = true` and
`cv_.notify_all()`; then every worker thread is joined (the worker threads
themselves are not part of this state record); then the drain loop runs on
whatever is still queued. -/
def dtor (s : PoolState) : Option PoolState :=
  let s1 : PoolState := { s with stop := true }
  drainFuel (queueMeasure s1 + 1) s1

/-! Basic lemmas about the embedding. -/

@[simp]
theorem heapSet_same (hp : Heap) (h : Handle) (f : Option Frame) :
    heapSet hp h f h = f := by
  simp [heapSet]

theorem heapSet_other (hp : Heap) (h h2 : Handle) (f : Option Frame)
    (hne : h2 ≠ h) : heapSet hp h f h2 = hp h2 := by
  simp [heapSet, hne]

theorem runOps_computes_then_yield (pre post : List CoroOp)
    (hpre : ∀ op ∈ pre, op = CoroOp.compute) :
    runOps (pre ++ CoroOp.yieldOnce :: post) =
      (post, ResumeOutcome.suspended) := by
  induction pre with
  | nil => simp [runOps]
  | cons a l ih =>
    have ha : a = CoroOp.compute := hpre a (by simp)
    subst ha
    simpa [runOps] using ih (fun op hm => hpre op (by simp [hm]))

theorem runOps_computes_then_raise (pre post : List CoroOp)
    (hpre : ∀ op ∈ pre, op = CoroOp.compute) :
    runOps (pre ++ CoroOp.raiseErr :: post) =
      ([], ResumeOutcome.terminated) := by
  induction pre with
  | nil => simp [runOps]
  | cons a l ih =>
    have ha : a = CoroOp.compute := hpre a (by simp)
    subst ha
    simpa [runOps] using ih (fun op hm => hpre op (by simp [hm]))

theorem runOps_all_compute (ops : List CoroOp)
    (hall : ∀ op ∈ ops, op = CoroOp.compute) :
    runOps ops = ([], ResumeOutcome.completed) := by
  induction ops with
  | nil => simp [runOps]
  | cons a l ih =>
    have ha : a = CoroOp.compute := hall a (by simp)
    subst ha
    simpa [runOps] using ih (fun op hm => hall op (by simp [hm]))

theorem pendingDec_eq_sub_one (p : Nat) (h0 : 0 < p) (hlt : p < sizeTMod) :
    pendingDec p = p - 1 := by
  have h1 : p + (sizeTMod - 1) = (p - 1) + sizeTMod := by
    have : 0 < sizeTMod := by norm_num [sizeTMod]
    omega
  rw [pendingDec, h1, Nat.add_mod_right, Nat.mod_eq_of_lt (by omega)]

/-! Claims C1 to C3. -/

/-- C1: wait_idle blocks on the predicate `pending_ == 0 && q_.empty()`:
the call returns exactly when the pending count is zero and the ready queue
is empty, and on a freshly constructed pool with zero units submitted
(pending count 0, empty queue) the predicate already holds, so the call
returns immediately. -/
theorem wait_idle_returns_iff_idle :
    (∀ s : PoolState,
        waitIdleReturns s = true ↔ (s.pending = 0 ∧ s.q = [])) ∧
    waitIdleReturns initPool = true := by
  constructor
  · intro s
    simp [waitIdleReturns, List.isEmpty_iff]
  · rfl

theorem wait_idle_returns_iff_idle_witness :
    initPool.pending = 0 ∧ initPool.q = [] :=
  (wait_idle_returns_iff_idle.1 initPool).mp (by decide)

/-- C2: when a worker resumes the front handle and the body reaches a
`co_await pool.yield_once()`, the handle is pushed at the back of the ready
queue before the suspension takes effect, the worker is not blocked (its
iteration ends in a `ran` result, leaving it free to dequeue the next ready
handle, which is the one that was behind the yielded handle), the frame
stays alive and not done with its continuation being exactly the body
after the suspension point (so a later resume continues right there, no
value passed in or out), and neither the pending count nor the destruction
counter changes. -/
theorem yield_once_requeues_and_suspends (s : PoolState) (h : Handle)
    (t : List Handle) (f : Frame) (pre post : List CoroOp)
    (hq : s.q = h :: t) (hf : s.frames h = some f)
    (hops : f.ops = pre ++ CoroOp.yieldOnce :: post)
    (hpre : ∀ op ∈ pre, op = CoroOp.compute) :
    ∃ s2 : PoolState,
      workerStep s = StepResult.ran h s2 false ∧
      s2.q = t ++ [h] ∧
      s2.frames h = some ⟨post, false⟩ ∧
      s2.pending = s.pending ∧ s2.destroyed = s.destroyed := by
  have hrun : runOps f.ops = (post, ResumeOutcome.suspended) := by
    rw [hops]; exact runOps_computes_then_yield pre post hpre
  refine ⟨enqueue
      { s with
        q := t
        frames := heapSet s.frames h (some ⟨post, false⟩) } h,
    ?_, ?_, ?_, ?_, ?_⟩
  · simp [workerStep, hq, resume, hf, hrun]
  · simp [enqueue]
  · simp [enqueue]
  · simp [enqueue]
  · simp [enqueue]

def exYieldPool : PoolState :=
  { q := [5, 9], pending := 2, stop := false,
    frames := fun h => if h = 5 then
        some ⟨[CoroOp.compute, CoroOp.yieldOnce, CoroOp.compute], false⟩
      else none,
    destroyed := 0 }

theorem yield_once_requeues_and_suspends_witness :
    ∃ s2 : PoolState,
      workerStep exYieldPool = StepResult.ran 5 s2 false ∧
      s2.q = [9] ++ [5] ∧
      s2.frames 5 = some ⟨[CoroOp.compute], false⟩ ∧
      s2.pending = exYieldPool.pending ∧
      s2.destroyed = exYieldPool.destroyed :=
  yield_once_requeues_and_suspends exYieldPool 5 [9]
    ⟨[CoroOp.compute, CoroOp.yieldOnce, CoroOp.compute], false⟩
    [CoroOp.compute] [CoroOp.compute] rfl rfl rfl (by decide)

/-- C3: spawning a task holding a live (non-null) handle nulls the caller's
Task without touching the frame heap (ownership moves to the pool),
increments the pending count by exactly one, appends the handle at the back
of the ready queue, and calls `cv_.notify_one()` to wake one idle
worker. -/
theorem spawn_transfers_and_enqueues (t : Task) (h : Handle) (s : PoolState)
    (ht : t.h = some h) (hp : s.pending + 1 < sizeTMod) :
    (spawn t s).1 = { h := none } ∧
    (spawn t s).2.1.q = s.q ++ [h] ∧
    (spawn t s).2.1.pending = s.pending + 1 ∧
    (spawn t s).2.1.frames = s.frames ∧
    (spawn t s).2.1.stop = s.stop ∧
    (spawn t s).2.2 = true := by
  simp [spawn, ht, Nat.mod_eq_of_lt hp]

theorem spawn_transfers_and_enqueues_witness :
    (spawn ⟨some 3⟩ initPool).2.1.q = initPool.q ++ [3] ∧
    (spawn ⟨some 3⟩ initPool).2.1.pending = initPool.pending + 1 :=
  ⟨(spawn_transfers_and_enqueues ⟨some 3⟩ 3 initPool rfl
      (by norm_num [initPool, sizeTMod])).2.1,
   (spawn_transfers_and_enqueues ⟨some 3⟩ 3 initPool rfl
      (by norm_num [initPool, sizeTMod])).2.2.1⟩

/-! Shared lemmas about one worker-loop iteration. -/

theorem workerStep_completes (s : PoolState) (h : Handle) (t : List Handle)
    (f : Frame) (hq : s.q = h :: t) (hf : s.frames h = some f)
    (hc : (runOps f.ops).2 = ResumeOutcome.completed) :
    workerStep s = StepResult.ran h
      { q := t
        pending := pendingDec s.pending
        stop := s.stop
        frames := heapSet (heapSet s.frames h (some ⟨[], true⟩)) h none
        destroyed := s.destroyed + 1 }
      (pendingDec s.pending == 0 && t.isEmpty) := by
  obtain ⟨r, hrest⟩ : ∃ r, runOps f.ops = (r, ResumeOutcome.completed) :=
    ⟨(runOps f.ops).1, by rw [← hc]⟩
  simp [workerStep, hq, resume, hf, hrest, destroyFrame, heapSet_same]

theorem workerStep_suspends (s : PoolState) (h : Handle) (t : List Handle)
    (f : Frame) (hq : s.q = h :: t) (hf : s.frames h = some f)
    (hsus : (runOps f.ops).2 = ResumeOutcome.suspended) :
    workerStep s = StepResult.ran h
      { q := t ++ [h]
        pending := s.pending
        stop := s.stop
        frames := heapSet s.frames h (some ⟨(runOps f.ops).1, false⟩)
        destroyed := s.destroyed }
      false := by
  obtain ⟨r, hrest⟩ : ∃ r, runOps f.ops = (r, ResumeOutcome.suspended) :=
    ⟨(runOps f.ops).1, by rw [← hsus]⟩
  simp [workerStep, hq, resume, hf, hrest, enqueue]

theorem workerStep_exited_iff (s0 : PoolState) :
    (∃ s3, workerStep s0 = StepResult.exited s3) ↔
      (s0.stop = true ∧ s0.q = []) := by
  constructor
  · rintro ⟨s3, hstep⟩
    rw [workerStep.eq_def] at hstep
    cases hq0 : s0.q with
    | nil =>
      refine ⟨?_, rfl⟩
      rw [hq0] at hstep
      by_cases hstop : s0.stop
      · exact hstop
      · simp [hstop] at hstep
    | cons a l =>
      exfalso
      rw [hq0] at hstep
      rcases hr : resume { s0 with q := l } a with ⟨s2, out⟩
      simp only [hr] at hstep
      cases out <;> simp at hstep
  · rintro ⟨hstop, hq0⟩
    refine ⟨s0, ?_⟩
    rw [workerStep.eq_def, hq0]
    simp [hstop]

/-! Claims C4 and C7 to C10. -/

/-- C4: in one worker-loop iteration the worker exits exactly when the stop
flag is set with an empty queue; otherwise it removes exactly the front
handle from the queue and resumes it.  If the body then reports completion,
the worker destroys the frame and decrements the pending count by one,
calling `cv_idle_.notify_all()` exactly when the decremented count is zero
with an empty queue; if the body merely suspended, the worker takes no
further action on the handle (no destroy, no pending change — the handle
was already re-enqueued by the suspension point itself). -/
theorem worker_loop_iteration (s : PoolState) (h : Handle)
    (t : List Handle) (f : Frame)
    (hq : s.q = h :: t) (hf : s.frames h = some f)
    (hp0 : 0 < s.pending) (hpM : s.pending < sizeTMod) :
    (∀ s0 : PoolState,
        (∃ s3, workerStep s0 = StepResult.exited s3) ↔
          (s0.stop = true ∧ s0.q = [])) ∧
    ((runOps f.ops).2 = ResumeOutcome.completed →
      ∃ s2 b, workerStep s = StepResult.ran h s2 b ∧
        s2.q = t ∧ s2.frames h = none ∧
        s2.pending = s.pending - 1 ∧
        s2.destroyed = s.destroyed + 1 ∧
        (b = true ↔ (s2.pending = 0 ∧ s2.q = []))) ∧
    ((runOps f.ops).2 = ResumeOutcome.suspended →
      ∃ s2, workerStep s = StepResult.ran h s2 false ∧
        s2.q = t ++ [h] ∧
        s2.frames h = some ⟨(runOps f.ops).1, false⟩ ∧
        s2.pending = s.pending ∧ s2.destroyed = s.destroyed) := by
  refine ⟨workerStep_exited_iff, ?_, ?_⟩
  · intro hc
    refine ⟨_, _, workerStep_completes s h t f hq hf hc, rfl, ?_, ?_, rfl, ?_⟩
    · simp [heapSet_same]
    · simpa using pendingDec_eq_sub_one s.pending hp0 hpM
    · simp [pendingDec_eq_sub_one s.pending hp0 hpM, List.isEmpty_iff]
  · intro hsus
    refine ⟨_, workerStep_suspends s h t f hq hf hsus, rfl, ?_, rfl, rfl⟩
    simp [heapSet_same]

def exDonePool : PoolState :=
  { q := [1], pending := 1, stop := false,
    frames := fun h => if h = 1 then some ⟨[CoroOp.compute], false⟩ else none,
    destroyed := 0 }

theorem worker_loop_iteration_witness :
    ∃ s2 b, workerStep exDonePool = StepResult.ran 1 s2 b ∧
      s2.q = [] ∧ s2.frames 1 = none ∧
      s2.pending = exDonePool.pending - 1 ∧
      s2.destroyed = exDonePool.destroyed + 1 ∧
      (b = true ↔ (s2.pending = 0 ∧ s2.q = [])) :=
  (worker_loop_iteration exDonePool 1 [] ⟨[CoroOp.compute], false⟩ rfl rfl
      (by decide) (by norm_num [exDonePool, sizeTMod])).2.1 rfl

/-- Modelled from the spec: the spec demands that a submission made after
shutdown has been initiated (stop flag set) be rejected with a clear
"scheduler stopped" failure.  The code's `spawn` has no failure channel at
all, so the weakest reading of rejection is: the scheduler state is left
unchanged and no worker is woken. -/
def spawnRejectsWhenStopped : Prop :=
  ∀ (t : Task) (s : PoolState), s.stop = true →
    (spawn t s).2.1 = s ∧ (spawn t s).2.2 = false

def stoppedPool : PoolState :=
  { q := [], pending := 0, stop := true, frames := fun _ => none,
    destroyed := 0 }

/-- C7 counterexample: `ThreadPool::spawn` (lines 101-117) never consults
`stop_`.  Submitting a unit holding handle 0 to an already-stopped pool is
accepted (the handle is enqueued, the pending count moves, a worker is
woken), so no rejection happens and the claim as stated is false. -/
theorem spawn_after_stop_not_rejected : ¬ spawnRejectsWhenStopped := by
  intro hrej
  have hx := (hrej ⟨some 0⟩ stoppedPool rfl).1
  have hqx := congrArg PoolState.q hx
  simp [spawn, stoppedPool] at hqx

/-- C7 amended: a unit submitted after the stop flag is set is accepted
exactly as before shutdown — the caller's Task is nulled, the pending count
is incremented, the handle is appended to the ready queue, and one worker
is woken; no "scheduler stopped" failure exists in the interface.  (Such a
handle is not silently leaked: the destructor's drain loop later runs or
destroys whatever is still queued, see the C5 theorem.) -/
theorem spawn_after_stop_accepts (t : Task) (h : Handle) (s : PoolState)
    (ht : t.h = some h) (hstop : s.stop = true)
    (hp : s.pending + 1 < sizeTMod) :
    (spawn t s).1 = { h := none } ∧
    (spawn t s).2.1.q = s.q ++ [h] ∧
    (spawn t s).2.1.pending = s.pending + 1 ∧
    (spawn t s).2.1.stop = true ∧
    (spawn t s).2.2 = true := by
  simp [spawn, ht, Nat.mod_eq_of_lt hp, hstop]

theorem spawn_after_stop_accepts_witness :
    (spawn ⟨some 4⟩ stoppedPool).2.1.q = stoppedPool.q ++ [4] ∧
    (spawn ⟨some 4⟩ stoppedPool).2.1.stop = true :=
  ⟨(spawn_after_stop_accepts ⟨some 4⟩ 4 stoppedPool rfl rfl
      (by norm_num [stoppedPool, sizeTMod])).2.1,
   (spawn_after_stop_accepts ⟨some 4⟩ 4 stoppedPool rfl rfl
      (by norm_num [stoppedPool, sizeTMod])).2.2.2.1⟩

/-- C8: when the resumed body lets an exception escape before reaching any
suspension point, `promise_type::unhandled_exception` (line 24) calls
`std::terminate()`: the worker iteration ends in process termination, and
the `terminated` outcome carries no failure value, so nothing is propagated
back to the submitter. -/
theorem unhandled_exception_terminates (s : PoolState) (h : Handle)
    (t : List Handle) (f : Frame) (pre post : List CoroOp)
    (hq : s.q = h :: t) (hf : s.frames h = some f)
    (hops : f.ops = pre ++ CoroOp.raiseErr :: post)
    (hpre : ∀ op ∈ pre, op = CoroOp.compute) :
    workerStep s = StepResult.terminated ∧
    (resume { s with q := t } h).2 = ResumeOutcome.terminated := by
  have hrun : runOps f.ops = ([], ResumeOutcome.terminated) := by
    rw [hops]; exact runOps_computes_then_raise pre post hpre
  constructor
  · simp [workerStep, hq, resume, hf, hrun]
  · simp [resume, hf, hrun]

def exRaisePool : PoolState :=
  { q := [2], pending := 1, stop := false,
    frames := fun h => if h = 2 then
        some ⟨[CoroOp.compute, CoroOp.raiseErr], false⟩
      else none,
    destroyed := 0 }

theorem unhandled_exception_terminates_witness :
    workerStep exRaisePool = StepResult.terminated :=
  (unhandled_exception_terminates exRaisePool 2 []
      ⟨[CoroOp.compute, CoroOp.raiseErr], false⟩ [CoroOp.compute] []
      rfl rfl rfl (by decide)).1

/-- C9: a submitted body with zero suspension points runs to completion
within the single resume call of one worker iteration: the frame is
destroyed in that same iteration, the pending count drops by one, and the
handle never re-enters the ready queue before destruction (it is absent
from the resulting queue). -/
theorem zero_suspension_single_resume (s : PoolState) (h : Handle)
    (t : List Handle) (f : Frame)
    (hq : s.q = h :: t) (hf : s.frames h = some f)
    (hall : ∀ op ∈ f.ops, op = CoroOp.compute)
    (hnin : h ∉ t) (hp0 : 0 < s.pending) (hpM : s.pending < sizeTMod) :
    ∃ s2 b, workerStep s = StepResult.ran h s2 b ∧
      s2.q = t ∧ h ∉ s2.q ∧ s2.frames h = none ∧
      s2.pending = s.pending - 1 ∧ s2.destroyed = s.destroyed + 1 := by
  have hc : (runOps f.ops).2 = ResumeOutcome.completed := by
    rw [runOps_all_compute f.ops hall]
  refine ⟨_, _, workerStep_completes s h t f hq hf hc, rfl, hnin, ?_, ?_, rfl⟩
  · simp [heapSet_same]
  · simpa using pendingDec_eq_sub_one s.pending hp0 hpM

def exComputePool : PoolState :=
  { q := [3, 7], pending := 2, stop := false,
    frames := fun h => if h = 3 then
        some ⟨[CoroOp.compute, CoroOp.compute], false⟩
      else none,
    destroyed := 0 }

theorem zero_suspension_single_resume_witness :
    ∃ s2 b, workerStep exComputePool = StepResult.ran 3 s2 b ∧
      s2.q = [7] ∧ 3 ∉ s2.q ∧ s2.frames 3 = none ∧
      s2.pending = exComputePool.pending - 1 ∧
      s2.destroyed = exComputePool.destroyed + 1 :=
  zero_suspension_single_resume exComputePool 3 [7]
    ⟨[CoroOp.compute, CoroOp.compute], false⟩ rfl rfl (by decide) (by decide)
    (by decide) (by norm_num [exComputePool, sizeTMod])

/-- C10: move assignment between distinct Task objects gives the target the
source's handle and nulls the source, but never destroys the handle the
target previously held: the frame heap is untouched by the assignment, so a
live frame the target owned beforehand is still live afterwards.  Only the
Task destructor (line 44) destroys a held handle. -/
theorem move_assign_no_destroy (target source : Task) (hp : Heap)
    (h0 : Handle) (f : Frame) (hown : target.h = some h0)
    (hlive : hp h0 = some f) :
    (moveAssign target source hp).1 = { h := source.h } ∧
    (moveAssign target source hp).2.1 = { h := none } ∧
    (moveAssign target source hp).2.2 = hp ∧
    (moveAssign target source hp).2.2 h0 = some f ∧
    taskDtor target hp h0 = none := by
  refine ⟨rfl, rfl, rfl, hlive, ?_⟩
  simp [taskDtor, hown, heapSet_same]

theorem move_assign_no_destroy_witness :
    (moveAssign ⟨some 0⟩ ⟨some 1⟩
        (fun h => if h = 0 then some ⟨[], false⟩ else none)).2.2 0 =
      some ⟨[], false⟩ ∧
    taskDtor ⟨some 0⟩
        (fun h => if h = 0 then some ⟨[], false⟩ else none) 0 = none :=
  ⟨(move_assign_no_destroy ⟨some 0⟩ ⟨some 1⟩
      (fun h => if h = 0 then some ⟨[], false⟩ else none) 0
      ⟨[], false⟩ rfl rfl).2.2.2.1,
   (move_assign_no_destroy ⟨some 0⟩ ⟨some 1⟩
      (fun h => if h = 0 then some ⟨[], false⟩ else none) 0
      ⟨[], false⟩ rfl rfl).2.2.2.2⟩

/-! Queue-shape lemmas for the at-most-once invariant. -/

theorem destroyFrame_q (s : PoolState) (h : Handle) :
    (destroyFrame s h).q = s.q := by
  rw [destroyFrame.eq_def]
  cases hfr : s.frames h <;> simp [hfr]

theorem resume_q (s : PoolState) (h : Handle) :
    (resume s h).1.q = s.q ∨ (resume s h).1.q = s.q ++ [h] := by
  rw [resume.eq_def]
  cases hfr : s.frames h with
  | none => simp [hfr]
  | some f =>
    rcases hro : runOps f.ops with ⟨rest, out⟩
    cases out <;> simp [hfr, hro, enqueue]

theorem workerStep_ran_inv (s : PoolState) (h2 : Handle) (s2 : PoolState)
    (b : Bool) (hstep : workerStep s = StepResult.ran h2 s2 b) :
    ∃ t, s.q = h2 :: t ∧ (s2.q = t ∨ s2.q = t ++ [h2]) := by
  rw [workerStep.eq_def] at hstep
  cases hq : s.q with
  | nil =>
    rw [hq] at hstep
    by_cases hstop : s.stop <;> simp [hstop] at hstep
  | cons a t =>
    rw [hq] at hstep
    rcases hr : resume { s with q := t } a with ⟨s3, out⟩
    simp only [hr] at hstep
    have hq3 : s3.q = t ∨ s3.q = t ++ [a] := by
      have hrq := resume_q { s with q := t } a
      rw [hr] at hrq
      simpa using hrq
    cases out with
    | suspended =>
      injection hstep with ha hs hb
      subst ha; subst hs
      exact ⟨t, rfl, hq3⟩
    | completed =>
      injection hstep with ha hs hb
      subst ha; subst hs
      refine ⟨t, rfl, ?_⟩
      simpa [destroyFrame_q] using hq3
    | terminated => cases hstep

/-- C6: the ready queue is FIFO and holds a given handle at most once at
any instant.  FIFO: `enqueue_` and `spawn` push at the BACK of the queue,
while a worker iteration pops exactly the FRONT handle.  At most once: a
duplicate-free queue stays duplicate-free across a worker iteration (the
handle is removed before resumption and re-appended at the back only if it
yields) and across a spawn of a handle not already queued. -/
theorem queue_fifo_at_most_once :
    (∀ (s : PoolState) (h : Handle), (enqueue s h).q = s.q ++ [h]) ∧
    (∀ (t : Task) (h : Handle) (s : PoolState), t.h = some h →
        (spawn t s).2.1.q = s.q ++ [h]) ∧
    (∀ (s : PoolState) (h : Handle) (t : List Handle) (h2 : Handle)
        (s2 : PoolState) (b : Bool), s.q = h :: t →
        workerStep s = StepResult.ran h2 s2 b → h2 = h) ∧
    (∀ (s : PoolState) (h2 : Handle) (s2 : PoolState) (b : Bool),
        workerStep s = StepResult.ran h2 s2 b →
        s.q.Nodup → s2.q.Nodup) ∧
    (∀ (t : Task) (h : Handle) (s : PoolState), t.h = some h →
        h ∉ s.q → s.q.Nodup → (spawn t s).2.1.q.Nodup) := by
  refine ⟨fun s h => rfl, ?_, ?_, ?_, ?_⟩
  · intro t h s ht
    simp [spawn, ht]
  · intro s h t h2 s2 b hq hstep
    obtain ⟨t2, hq2, _⟩ := workerStep_ran_inv s h2 s2 b hstep
    rw [hq] at hq2
    exact (List.cons.inj hq2).1.symm
  · intro s h2 s2 b hstep hnd
    obtain ⟨t2, hq2, hcase⟩ := workerStep_ran_inv s h2 s2 b hstep
    rw [hq2, List.nodup_cons] at hnd
    cases hcase with
    | inl hc => rw [hc]; exact hnd.2
    | inr hc =>
      rw [hc]
      simp [List.nodup_append, hnd.1, hnd.2]
  · intro t h s ht hnin hnd
    simp [spawn, ht, List.nodup_append, hnin, hnd]

theorem queue_fifo_at_most_once_witness :
    (spawn ⟨some 6⟩ exYieldPool).2.1.q.Nodup :=
  queue_fifo_at_most_once.2.2.2.2 ⟨some 6⟩ 6 exYieldPool rfl
    (by decide) (by decide)

/-! Lemmas about runOps, heap updates and the drain measure, leading to the
shutdown-drain theorem. -/

theorem runOps_suspended_length (ops rest : List CoroOp)
    (h : runOps ops = (rest, ResumeOutcome.suspended)) :
    rest.length < ops.length := by
  induction ops with
  | nil => simp [runOps] at h
  | cons a l ih =>
    cases a with
    | compute =>
      rw [runOps] at h
      exact Nat.lt_succ_of_lt (ih h)
    | yieldOnce =>
      rw [runOps] at h
      obtain ⟨rfl, -⟩ := Prod.mk.inj h
      exact Nat.lt_succ_self _
    | raiseErr => simp [runOps] at h

theorem runOps_mem_of_mem_fst (ops rest : List CoroOp) (out : ResumeOutcome)
    (h : runOps ops = (rest, out)) (x : CoroOp) (hx : x ∈ rest) :
    x ∈ ops := by
  induction ops generalizing rest out with
  | nil =>
    rw [runOps] at h
    obtain ⟨rfl, -⟩ := Prod.mk.inj h
    cases hx
  | cons a l ih =>
    cases a with
    | compute => exact List.mem_cons_of_mem _ (ih rest out (by rw [runOps] at h; exact h) hx)
    | yieldOnce =>
      rw [runOps] at h
      obtain ⟨rfl, -⟩ := Prod.mk.inj h
      exact List.mem_cons_of_mem _ hx
    | raiseErr =>
      rw [runOps] at h
      obtain ⟨rfl, -⟩ := Prod.mk.inj h
      cases hx

theorem runOps_terminated_mem (ops rest : List CoroOp)
    (h : runOps ops = (rest, ResumeOutcome.terminated)) :
    CoroOp.raiseErr ∈ ops := by
  induction ops generalizing rest with
  | nil => simp [runOps] at h
  | cons a l ih =>
    cases a with
    | compute =>
      rw [runOps] at h
      exact List.mem_cons_of_mem _ (ih rest h)
    | yieldOnce => simp [runOps] at h
    | raiseErr => exact List.mem_cons_self _ _

theorem heapSet_heapSet (hp : Heap) (h : Handle) (x y : Option Frame) :
    heapSet (heapSet hp h x) h y = heapSet hp h y := by
  funext h2
  by_cases hc : h2 = h <;> simp [heapSet, hc]

theorem sum_map_frameCost_congr (q : List Handle) (f1 f2 : Heap)
    (hagree : ∀ h ∈ q, f1 h = f2 h) :
    (q.map fun h => frameCost (f1 h)).sum =
      (q.map fun h => frameCost (f2 h)).sum := by
  induction q with
  | nil => rfl
  | cons a t ih =>
    have h1 : f1 a = f2 a := hagree a (by simp)
    have h2 := ih (fun h hm => hagree h (by simp [hm]))
    simp [h1, h2]

theorem queueMeasure_def (s : PoolState) :
    queueMeasure s = (s.q.map fun h => frameCost (s.frames h)).sum := rfl

theorem frameCost_some (f : Frame) :
    frameCost (some f) = f.ops.length + 2 := rfl

theorem drainFuel_nil (fuel : Nat) (s : PoolState) (hq : s.q = []) :
    drainFuel (fuel + 1) s = some s := by
  simp [drainFuel, hq]

theorem drainFuel_step_destroy (fuel : Nat) (s : PoolState) (a : Handle)
    (t : List Handle) (f : Frame) (hq : s.q = a :: t)
    (hfa : s.frames a = some f)
    (hcase : f.done = true ∨
      (f.done = false ∧ (runOps f.ops).2 = ResumeOutcome.completed)) :
    ∃ u : PoolState, drainFuel (fuel + 1) s = drainFuel fuel u ∧
      u.q = t ∧ u.stop = s.stop ∧ u.destroyed = s.destroyed + 1 ∧
      u.frames = heapSet s.frames a none := by
  rcases hcase with hdone | ⟨hdone, hc⟩
  · refine ⟨{ q := t
              pending := s.pending
              stop := s.stop
              frames := heapSet s.frames a none
              destroyed := s.destroyed + 1 }, ?_, rfl, rfl, rfl, rfl⟩
    simp only [drainFuel, hq]
    simp [hfa, hdone, destroyFrame]
  · obtain ⟨r, hro⟩ : ∃ r, runOps f.ops = (r, ResumeOutcome.completed) :=
      ⟨(runOps f.ops).1, by rw [← hc]⟩
    refine ⟨{ q := t
              pending := s.pending
              stop := s.stop
              frames := heapSet (heapSet s.frames a (some ⟨[], true⟩)) a none
              destroyed := s.destroyed + 1 }, ?_, rfl, rfl, rfl,
        heapSet_heapSet s.frames a (some ⟨[], true⟩) none⟩
    simp only [drainFuel, hq]
    simp [hfa, hdone, resume, hro, destroyFrame, heapSet_same]

theorem drainFuel_step_yield (fuel : Nat) (s : PoolState) (a : Handle)
    (t : List Handle) (f : Frame) (rest : List CoroOp) (hq : s.q = a :: t)
    (hfa : s.frames a = some f) (hdone : f.done = false)
    (hro : runOps f.ops = (rest, ResumeOutcome.suspended)) :
    ∃ u : PoolState, drainFuel (fuel + 1) s = drainFuel fuel u ∧
      u.q = t ++ [a] ∧ u.stop = s.stop ∧ u.destroyed = s.destroyed ∧
      u.frames = heapSet s.frames a (some ⟨rest, false⟩) := by
  refine ⟨{ q := t ++ [a]
            pending := s.pending
            stop := s.stop
            frames := heapSet s.frames a (some ⟨rest, false⟩)
            destroyed := s.destroyed }, ?_, rfl, rfl, rfl, rfl⟩
  simp only [drainFuel, hq]
  simp [hfa, hdone, resume, hro, enqueue, heapSet_same]

theorem drainFuel_step_terminated (fuel : Nat) (s : PoolState) (a : Handle)
    (t : List Handle) (f : Frame) (hq : s.q = a :: t)
    (hfa : s.frames a = some f) (hdone : f.done = false)
    (hro : (runOps f.ops).2 = ResumeOutcome.terminated) :
    drainFuel (fuel + 1) s = none := by
  obtain ⟨r, hro2⟩ : ∃ r, runOps f.ops = (r, ResumeOutcome.terminated) :=
    ⟨(runOps f.ops).1, by rw [← hro]⟩
  simp only [drainFuel, hq]
  simp [hfa, hdone, resume, hro2]

/-- Induction statement for the drain loop: with enough fuel, a
duplicate-free queue of live, non-raising frames is fully drained — the
loop returns, the queue ends empty, every queued frame is destroyed,
already-freed addresses stay free, and the destruction counter grows by
exactly the queue length. -/
def DrainSpec (fuel : Nat) : Prop :=
  ∀ s : PoolState, queueMeasure s < fuel → s.q.Nodup →
    (∀ h ∈ s.q, ∃ f, s.frames h = some f ∧ CoroOp.raiseErr ∉ f.ops) →
    ∃ s2 : PoolState, drainFuel fuel s = some s2 ∧ s2.q = [] ∧
      s2.stop = s.stop ∧ (∀ h ∈ s.q, s2.frames h = none) ∧
      (∀ h2 : Handle, s.frames h2 = none → s2.frames h2 = none) ∧
      s2.destroyed = s.destroyed + s.q.length

theorem drain_destroy_case (fuel : Nat) (ih : DrainSpec fuel)
    (s : PoolState) (a : Handle) (t : List Handle) (f : Frame)
    (hq : s.q = a :: t) (hfa : s.frames a = some f)
    (hm : queueMeasure s < fuel + 1) (hnd : s.q.Nodup)
    (hok : ∀ h ∈ s.q, ∃ g, s.frames h = some g ∧ CoroOp.raiseErr ∉ g.ops)
    (hcase : f.done = true ∨
      (f.done = false ∧ (runOps f.ops).2 = ResumeOutcome.completed)) :
    ∃ s2 : PoolState, drainFuel (fuel + 1) s = some s2 ∧ s2.q = [] ∧
      s2.stop = s.stop ∧ (∀ h ∈ s.q, s2.frames h = none) ∧
      (∀ h2 : Handle, s.frames h2 = none → s2.frames h2 = none) ∧
      s2.destroyed = s.destroyed + s.q.length := by
  obtain ⟨u, hstep, huq, hust, hud, huf⟩ :=
    drainFuel_step_destroy fuel s a t f hq hfa hcase
  have hnd2 : a ∉ t ∧ t.Nodup := by
    rw [hq, List.nodup_cons] at hnd; exact hnd
  have hne : ∀ h ∈ t, h ≠ a := fun h hmem hcon => hnd2.1 (hcon ▸ hmem)
  have hagree : ∀ h ∈ t, heapSet s.frames a none h = s.frames h :=
    fun h hmem => heapSet_other s.frames a h none (hne h hmem)
  have hmu : queueMeasure u < fuel := by
    rw [queueMeasure_def, huq, huf, sum_map_frameCost_congr t _ _ hagree]
    rw [queueMeasure_def, hq] at hm
    simp only [List.map_cons, List.sum_cons, hfa, frameCost_some] at hm
    omega
  have hnodup2 : u.q.Nodup := by rw [huq]; exact hnd2.2
  have hok2 : ∀ h ∈ u.q, ∃ g, u.frames h = some g ∧
      CoroOp.raiseErr ∉ g.ops := by
    intro h hmem
    rw [huq] at hmem
    obtain ⟨g, hg, hgr⟩ := hok h (by rw [hq]; exact List.mem_cons_of_mem a hmem)
    refine ⟨g, ?_, hgr⟩
    rw [huf, heapSet_other s.frames a h none (hne h hmem)]
    exact hg
  obtain ⟨s2, hd2, hq2, hst2, hfr2, hnone2, hdest2⟩ := ih u hmu hnodup2 hok2
  refine ⟨s2, by rw [hstep]; exact hd2, hq2, by rw [hst2, hust], ?_, ?_, ?_⟩
  · intro h hmem
    rw [hq] at hmem
    rcases List.mem_cons.mp hmem with rfl | hmem2
    · exact hnone2 h (by rw [huf, heapSet_same])
    · exact hfr2 h (by rw [huq]; exact hmem2)
  · intro h2 hn2
    have hne2 : h2 ≠ a := fun hcon => by rw [hcon, hfa] at hn2; cases hn2
    refine hnone2 h2 ?_
    rw [huf, heapSet_other s.frames a h2 none hne2]
    exact hn2
  · rw [hdest2, hud, huq, hq]
    simp only [List.length_cons]
    omega

theorem drain_yield_case (fuel : Nat) (ih : DrainSpec fuel)
    (s : PoolState) (a : Handle) (t : List Handle) (f : Frame)
    (rest : List CoroOp)
    (hq : s.q = a :: t) (hfa : s.frames a = some f)
    (hm : queueMeasure s < fuel + 1) (hnd : s.q.Nodup)
    (hok : ∀ h ∈ s.q, ∃ g, s.frames h = some g ∧ CoroOp.raiseErr ∉ g.ops)
    (hdone : f.done = false)
    (hro : runOps f.ops = (rest, ResumeOutcome.suspended)) :
    ∃ s2 : PoolState, drainFuel (fuel + 1) s = some s2 ∧ s2.q = [] ∧
      s2.stop = s.stop ∧ (∀ h ∈ s.q, s2.frames h = none) ∧
      (∀ h2 : Handle, s.frames h2 = none → s2.frames h2 = none) ∧
      s2.destroyed = s.destroyed + s.q.length := by
  obtain ⟨u, hstep, huq, hust, hud, huf⟩ :=
    drainFuel_step_yield fuel s a t f rest hq hfa hdone hro
  have hnd2 : a ∉ t ∧ t.Nodup := by
    rw [hq, List.nodup_cons] at hnd; exact hnd
  have hne : ∀ h ∈ t, h ≠ a := fun h hmem hcon => hnd2.1 (hcon ▸ hmem)
  have hagree : ∀ h ∈ t,
      heapSet s.frames a (some ⟨rest, false⟩) h = s.frames h :=
    fun h hmem => heapSet_other s.frames a h _ (hne h hmem)
  have hfraise : CoroOp.raiseErr ∉ f.ops := by
    obtain ⟨g, hg, hgr⟩ := hok a (by rw [hq]; exact List.mem_cons_self a t)
    rw [hfa] at hg
    obtain rfl := Option.some.inj hg
    exact hgr
  have hmu : queueMeasure u < fuel := by
    rw [queueMeasure_def, huq, huf, List.map_append, List.sum_append]
    rw [sum_map_frameCost_congr t _ _ hagree]
    have hlen := runOps_suspended_length f.ops rest hro
    rw [queueMeasure_def, hq] at hm
    simp only [List.map_cons, List.sum_cons, hfa, frameCost_some] at hm
    simp only [List.map_cons, List.map_nil, List.sum_cons, List.sum_nil,
      heapSet_same, frameCost_some]
    omega
  have hnodup2 : u.q.Nodup := by
    rw [huq]
    simp [List.nodup_append, hnd2.2, hnd2.1]
  have hok2 : ∀ h ∈ u.q, ∃ g, u.frames h = some g ∧
      CoroOp.raiseErr ∉ g.ops := by
    intro h hmem
    rw [huq] at hmem
    rcases List.mem_append.mp hmem with hmem2 | hmem2
    · obtain ⟨g, hg, hgr⟩ :=
        hok h (by rw [hq]; exact List.mem_cons_of_mem a hmem2)
      refine ⟨g, ?_, hgr⟩
      rw [huf, heapSet_other s.frames a h _ (hne h hmem2)]
      exact hg
    · obtain rfl : h = a := by simpa using hmem2
      refine ⟨⟨rest, false⟩, by rw [huf, heapSet_same], ?_⟩
      intro hmem3
      exact hfraise (runOps_mem_of_mem_fst f.ops rest
        ResumeOutcome.suspended hro CoroOp.raiseErr hmem3)
  obtain ⟨s2, hd2, hq2, hst2, hfr2, hnone2, hdest2⟩ := ih u hmu hnodup2 hok2
  refine ⟨s2, by rw [hstep]; exact hd2, hq2, by rw [hst2, hust], ?_, ?_, ?_⟩
  · intro h hmem
    rw [hq] at hmem
    rcases List.mem_cons.mp hmem with rfl | hmem2
    · exact hfr2 h (by rw [huq]; exact List.mem_append.mpr (Or.inr (by simp)))
    · exact hfr2 h (by rw [huq]; exact List.mem_append.mpr (Or.inl hmem2))
  · intro h2 hn2
    have hne2 : h2 ≠ a := fun hcon => by rw [hcon, hfa] at hn2; cases hn2
    refine hnone2 h2 ?_
    rw [huf, heapSet_other s.frames a h2 _ hne2]
    exact hn2
  · rw [hdest2, hud, huq, hq]
    simp [List.length_append]

theorem drainSpec_all (fuel : Nat) : DrainSpec fuel := by
  induction fuel with
  | zero =>
    intro s hm
    exact absurd hm (Nat.not_lt_zero _)
  | succ fuel ih =>
    intro s hm hnd hok
    cases hq : s.q with
    | nil =>
      refine ⟨s, drainFuel_nil fuel s hq, hq, rfl, ?_, fun h2 hn => hn, ?_⟩
      · intro h hmem
        cases hmem
      · simp
    | cons a t =>
      rw [← hq]
      obtain ⟨f, hfa, hfr⟩ := hok a (by rw [hq]; exact List.mem_cons_self a t)
      by_cases hdone : f.done = true
      · exact drain_destroy_case fuel ih s a t f hq hfa hm hnd hok
          (Or.inl hdone)
      · have hdf : f.done = false := by
          cases hdb : f.done
          · rfl
          · exact absurd hdb hdone
        rcases hro : runOps f.ops with ⟨rest, out⟩
        cases out with
        | suspended =>
          exact drain_yield_case fuel ih s a t f rest hq hfa hm hnd hok
            hdf hro
        | completed =>
          exact drain_destroy_case fuel ih s a t f hq hfa hm hnd hok
            (Or.inr ⟨hdf, by rw [hro]⟩)
        | terminated =>
          exact absurd (runOps_terminated_mem f.ops rest hro) hfr

/-- C5: shutdown invoked while handles remain in the ready queue.  The
destructor first sets the stop flag (after waking all workers and joining
the worker threads, which are not part of this state record), and the drain
loop then pops every remaining handle and either runs it to completion or
destroys it: afterwards the stop flag is set, the queue is empty, every
previously queued handle's frame is gone, and the destruction counter has
grown by exactly the number of queued handles — no frame is leaked.
Hypotheses: the queued handles are distinct and live (the at-most-once and
ownership invariants), and no queued body raises, since an escaping
exception would terminate the process instead. -/
theorem dtor_drains_all (s : PoolState) (hnd : s.q.Nodup)
    (hok : ∀ h ∈ s.q, ∃ f, s.frames h = some f ∧ CoroOp.raiseErr ∉ f.ops) :
    ∃ s2 : PoolState, dtor s = some s2 ∧ s2.stop = true ∧ s2.q = [] ∧
      (∀ h ∈ s.q, s2.frames h = none) ∧
      s2.destroyed = s.destroyed + s.q.length := by
  obtain ⟨s2, hd, hq2, hst2, hfr2, -, hdest2⟩ :=
    drainSpec_all (queueMeasure { s with stop := true } + 1)
      { s with stop := true } (Nat.lt_succ_self _) hnd hok
  exact ⟨s2, hd, hst2, hq2, hfr2, hdest2⟩

def exDrainPool : PoolState :=
  { q := [0, 1], pending := 2, stop := false,
    frames := fun h =>
      if h = 0 then some ⟨[CoroOp.yieldOnce, CoroOp.compute], false⟩
      else if h = 1 then some ⟨[CoroOp.compute], false⟩
      else none,
    destroyed := 0 }

theorem dtor_drains_all_witness :
    ∃ s2 : PoolState, dtor exDrainPool = some s2 ∧ s2.stop = true ∧
      s2.q = [] ∧ (∀ h ∈ exDrainPool.q, s2.frames h = none) ∧
      s2.destroyed = exDrainPool.destroyed + exDrainPool.q.length :=
  dtor_drains_all exDrainPool (by decide) (by
    intro h hm
    have hm2 : h = 0 ∨ h = 1 := by simpa [exDrainPool] using hm
    rcases hm2 with rfl | rfl
    · exact ⟨⟨[CoroOp.yieldOnce, CoroOp.compute], false⟩, rfl, by decide⟩
    · exact ⟨⟨[CoroOp.compute], false⟩, rfl, by decide⟩)

end CoroutinePool
